import Mathlib

/-!
LED-GRID: verification of the WLED synchronization core

Shallow embedding of the LED-GRID repository's synchronization core
(`src/wled/wled.ts` / the WLED client listing shipping in `README.md`,
`src/server.ts`, `src/utils.ts`, `src/constants.ts`) together with proofs
of the specified properties.

Conventions:
* JavaScript numbers used as coordinates/indices are modelled as `Int`
  (all code paths under study guard on integrality and range); fractional
  pixel indices reaching `sendPixels` are modelled as `Rat` so that the
  `Number.isInteger` guard is meaningful.
* Fallible code (`throw new Error(...)`) is modelled with `Except String`.
* JSON payloads are built as the exact strings `JSON.stringify` produces,
  and byte budgets use their UTF-8 byte length.
-/

namespace LedGrid

/-! ## Constants (`src/constants.ts`) -/

/-- Model of `GRID_WIDTH = 16 * 3` -/
def GRID_WIDTH : Nat := 16 * 3

/-- Model of `GRID_HEIGHT = 16 * 3` -/
def GRID_HEIGHT : Nat := 16 * 3

/-- Model of `TOTAL_CELLS = GRID_WIDTH * GRID_HEIGHT` -/
def TOTAL_CELLS : Nat := GRID_WIDTH * GRID_HEIGHT

/-! ## Coordinate mapper (`computeIndex` in `src/wled/wled.ts`) -/

/-- WLED grid orientation, `type Orientation` in `src/wled/wled.ts`. -/
inductive Orientation
  | topLeft
  | topRight
  | bottomLeft
  | bottomRight
deriving DecidableEq, Repr

/-- The orientation normalization step of `computeIndex`: reflect `(x, y)`
into top-left row-major coordinates. -/
def orientMap (o : Orientation) (width height : Int) : Int × Int → Int × Int
  | (x, y) =>
    match o with
    | .topLeft => (x, y)
    | .topRight => (width - 1 - x, y)
    | .bottomLeft => (x, height - 1 - y)
    | .bottomRight => (width - 1 - x, height - 1 - y)

/-- The serpentine step of `computeIndex`: if `serpentine` and the normalized
row is odd, reflect the column. -/
def serpMap (serpentine : Bool) (width : Int) : Int × Int → Int × Int
  | (nx, ny) => (if serpentine ∧ ny % 2 = 1 then width - 1 - nx else nx, ny)

/-- Model of `computeIndex(x, y, width, height, serpentine, orientation)` from
`src/wled/wled.ts`: range-checks the coordinates, normalizes the orientation,
applies the serpentine reflection and returns `ny * width + nx`. -/
def computeIndex (x y width height : Int) (serpentine : Bool)
    (orientation : Orientation) : Except String Int :=
  if x < 0 ∨ x ≥ width ∨ y < 0 ∨ y ≥ height then
    .error s!"XY out of range: ({x}, {y}) for {width}x{height}"
  else
    let p := serpMap serpentine width (orientMap orientation width height (x, y))
    .ok (p.2 * width + p.1)

/-- A coordinate pair is valid when both components are in range. -/
def validXY (width height : Int) (p : Int × Int) : Prop :=
  0 ≤ p.1 ∧ p.1 < width ∧ 0 ≤ p.2 ∧ p.2 < height

instance (width height : Int) (p : Int × Int) : Decidable (validXY width height p) := by
  unfold validXY; infer_instance

/-- Row-major decoding used to invert `computeIndex`. -/
def decodeIndex (width i : Int) : Int × Int := (i % width, i / width)

/-! ## Color values and normalizers -/

/-- A JavaScript color argument of the WLED client: `HexColor | Rgb`.
Channels of an `Rgb` are arbitrary JS numbers, modelled as rationals so that
the clamping-and-rounding in `normalizeHex` is meaningful. -/
inductive JsColor
  | str (s : String)
  | rgb (r g b : Rat)
deriving DecidableEq, Repr

/-- Per-character uppercasing, the model of JS `String.prototype.toUpperCase()`
on the ASCII strings this code base handles. -/
def jsToUpper (s : String) : String := ⟨s.data.map Char.toUpper⟩

/-- One character of the regex class `[0-9a-fA-F]`. -/
def isHexDigitChar (c : Char) : Bool :=
  decide (('0' ≤ c ∧ c ≤ '9') ∨ ('a' ≤ c ∧ c ≤ 'f') ∨ ('A' ≤ c ∧ c ≤ 'F'))

/-- The test `/^([0-9a-fA-F]{6})$/.test(s)`. -/
def hexTest6 (s : String) : Bool :=
  s.length == 6 && s.data.all isHexDigitChar

/-- One character of an uppercase hex code, `[0-9A-F]`. -/
def isUpperHexChar (c : Char) : Bool :=
  decide (('0' ≤ c ∧ c ≤ '9') ∨ ('A' ≤ c ∧ c ≤ 'F'))

/-- The `#`-stripping step of `normalizeHex`:
`color.startsWith("#") ? color.slice(1) : color`. -/
def stripHash (s : String) : String :=
  match s.data with
  | '#' :: rest => ⟨rest⟩
  | _ => s

/-- JS `String.prototype.trim()`: strip whitespace from both ends. -/
def jsTrim (s : String) : String :=
  ⟨((s.data.dropWhile Char.isWhitespace).reverse.dropWhile Char.isWhitespace).reverse⟩

/-- Model of `Math.max(0, Math.min(255, Math.round(n)))` — the channel clamp of
`normalizeHex`.  Mathlib `round` rounds half up, as JS `Math.round` does. -/
def clampByte (q : Rat) : Nat := (max 0 (min 255 (round q))).toNat

/-- Model of `padStart(2, "0")`. -/
def padStart2 (s : String) : String :=
  if 2 ≤ s.length then s else ⟨List.replicate (2 - s.length) '0' ++ s.data⟩

/-- Model of `v.toString(16).padStart(2, "0")`: lowercase hexadecimal digits of `v`
(`Nat.toDigits 16` produces exactly JS `toString(16)` digits), padded to two
characters. -/
def byteToHex2 (n : Nat) : String := padStart2 ⟨Nat.toDigits 16 n⟩

/-- Model of `normalizeHex(color)` from `src/wled/wled.ts`: a string must be exactly six
hex digits after an optional `#`, else a validation error is thrown; an
`{r,g,b}` triple is clamped, rounded and hex-formatted; the result is
uppercased. -/
def normalizeHexE : JsColor → Except String String
  | .str c =>
    let trimmed := stripHash c
    if hexTest6 trimmed then .ok (jsToUpper trimmed)
    else .error s!"Invalid hex color: {c}"
  | .rgb r g b =>
    .ok (jsToUpper (byteToHex2 (clampByte r) ++ byteToHex2 (clampByte g) ++
      byteToHex2 (clampByte b)))

/-! ### The loose normalizer `toHex` (`src/utils.ts`) and its `rgb()` parser -/

/-- Model of `\s*`: drop leading whitespace. -/
def skipWs (cs : List Char) : List Char := cs.dropWhile Char.isWhitespace

/-- Model of `(\d{1,3})`: a run of one to three decimal digits and its value
(`Number(m[i])`), or failure. -/
def parseNum3 (cs : List Char) : Option (Nat × List Char) :=
  let run := cs.takeWhile Char.isDigit
  if run.length = 0 ∨ 3 < run.length then none
  else some (run.foldl (fun a c => 10 * a + (c.toNat - 48)) 0, cs.dropWhile Char.isDigit)

/-- Model of `\d+`: at least one decimal digit, keeping only the rest of the input. -/
def digitsRun1 (cs : List Char) : Option (List Char) :=
  let run := cs.takeWhile Char.isDigit
  if run.length = 0 then none else some (cs.dropWhile Char.isDigit)

/-- One mandatory literal character. -/
def expectChar (c : Char) : List Char → Option (List Char)
  | x :: rest => if x = c then some rest else none
  | [] => none

/-- Case-insensitive literal prefix, for the `i` regex flag. -/
def matchCI : List Char → List Char → Option (List Char)
  | [], cs => some cs
  | _ :: _, [] => none
  | p :: ps, c :: cs => if c.toLower = p.toLower then matchCI ps cs else none

/-- The alpha alternatives `(0|0?\.\d+|1(?:\.0)?)` of the `rgba()` regex
(value ignored by `toHex`). -/
def parseAlpha : List Char → Option (List Char)
  | '1' :: '.' :: '0' :: rest => some rest
  | '1' :: rest => some rest
  | '0' :: '.' :: rest => digitsRun1 rest
  | '.' :: rest => digitsRun1 rest
  | '0' :: rest => some rest
  | _ => none

/-- The body after `rgb(`/`rgba(`: three comma-separated 1-3 digit numbers
with optional surrounding whitespace, an alpha component when `withAlpha`,
a closing parenthesis, and nothing after it (the regexes are `$`-anchored). -/
def parseRgbTail (withAlpha : Bool) (cs : List Char) : Option (Nat × Nat × Nat) := do
  let (r, cs) ← parseNum3 (skipWs cs)
  let cs ← expectChar ',' (skipWs cs)
  let (g, cs) ← parseNum3 (skipWs cs)
  let cs ← expectChar ',' (skipWs cs)
  let (b, cs) ← parseNum3 (skipWs cs)
  let cs := skipWs cs
  let cs ←
    if withAlpha then do
      let cs ← expectChar ',' cs
      let cs ← parseAlpha (skipWs cs)
      pure (skipWs cs)
    else pure cs
  let cs ← expectChar ')' cs
  if cs = [] then some (r, g, b) else none

/-- Model of `c.match(/^rgb\(...\)$/i) || c.match(/^rgba\(...\)$/i)` — the channel
captures when one of the two anchored regexes matches. -/
def parseRgbLike (s : String) : Option (Nat × Nat × Nat) :=
  match matchCI "rgb(".data s.data with
  | some rest => parseRgbTail false rest
  | none =>
    match matchCI "rgba(".data s.data with
    | some rest => parseRgbTail true rest
    | none => none

/-- Model of `toHex(color)` from `src/utils.ts`: the loose, non-throwing normalizer of
the sync path.  `undefined`/`null` are `none`; the JS falsy test `!color` also
catches the empty string. -/
def toHex (color : Option String) : String :=
  match color with
  | none => "000000"
  | some color =>
    if color = "" then "000000"
    else
      let c := jsTrim color
      match c.data with
      | '#' :: hexl =>
        if hexl.length = 3 then
          match hexl with
          | [r, g, b] => jsToUpper ⟨[r, r, g, g, b, b]⟩
          | l => jsToUpper ⟨l.take 6⟩
        else jsToUpper ⟨hexl.take 6⟩
      | _ =>
        match parseRgbLike c with
        | some (r, g, b) =>
          jsToUpper (byteToHex2 (max 0 (min 255 r)) ++ byteToHex2 (max 0 (min 255 g)) ++
            byteToHex2 (max 0 (min 255 b)))
        | none => jsToUpper c

/-! ## JSON payloads and the chunker (`WledGridClient.sendPixels`) -/

/-- UTF-8 byte length of a string — the model of
`new TextEncoder().encode(input).length` in `byteLengthUtf8`. -/
def byteLengthUtf8 (s : String) : Nat := (s.data.map Char.utf8Size).sum

/-- Model of `JSON.stringify` of a boolean. -/
def jsonBool (b : Bool) : String := if b then "true" else "false"

/-- One `(index, hex)` pair as it appears inside the `i` array:
`JSON.stringify` renders the index in decimal (`Nat.repr`) and the hex color
as a quoted string (normalized hex never needs escaping). -/
def jsonPair (p : Nat × String) : String :=
  Nat.repr p.1 ++ ",\"" ++ p.2 ++ "\""

/-- The optional `,"tt":n` member (present exactly when `ttUnits != null`). -/
def jsonTt : Option Nat → String
  | none => ""
  | some t => ",\"tt\":" ++ Nat.repr t

/-- Model of `JSON.stringify(bodySub)` for a chunk
`{on, seg: [{id, i: [...]}], v: false, tt?}` — the exact string, members in
insertion order as `JSON.stringify` emits them. -/
def serializeChunk (powerOn : Bool) (segId : Nat) (ttU : Option Nat)
    (pairs : List (Nat × String)) : String :=
  "\x7b\"on\":" ++ jsonBool powerOn ++ ",\"seg\":[\x7b\"id\":" ++ Nat.repr segId
    ++ ",\"i\":[" ++ String.intercalate "," (pairs.map jsonPair) ++ "]\x7d],\"v\":false"
    ++ jsonTt ttU ++ "\x7d"

/-- The inner growth loop of `sendPixels`: how many pairs the candidate chunk
accepts.  `acc` is the prefix already accepted; a pair is accepted when the
serialized envelope of the extended prefix still fits `limit`, and the loop
stops at the first pair that does not fit. -/
def chunkLen (ser : List (Nat × String) → Nat) (limit : Nat)
    (acc : List (Nat × String)) : List (Nat × String) → Nat
  | [] => 0
  | p :: rest =>
    if ser (acc ++ [p]) ≤ limit then 1 + chunkLen ser limit (acc ++ [p]) rest
    else 0

/-- The outer chunk loop of `sendPixels`, with explicit fuel (the loop always
advances by at least one pair, so `fuel = length` suffices): each iteration
takes the largest fitting prefix — at least one pair, so progress is always
made even when a single pair exceeds the budget — and continues with the
rest. -/
def chunkPairsCore (ser : List (Nat × String) → Nat) (limit : Nat) :
    Nat → List (Nat × String) → List (List (Nat × String))
  | 0, _ => []
  | _ + 1, [] => []
  | fuel + 1, p :: rest =>
    let k := max (chunkLen ser limit [] (p :: rest)) 1
    (p :: rest).take k :: chunkPairsCore ser limit fuel ((p :: rest).drop k)

/-- The chunks `sendPixels` emits for a filtered, normalized pair list. -/
def chunkPairs (ser : List (Nat × String) → Nat) (limit : Nat)
    (l : List (Nat × String)) : List (List (Nat × String)) :=
  chunkPairsCore ser limit l.length l

/-- Model of `WEBSOCKET_LIMIT = 1400` (also `WLED_CONFIG.WEBSOCKET_BYTE_LIMIT`). -/
def WEBSOCKET_LIMIT : Nat := 1400

/-- Model of `HTTP_LIMIT = 5000` (also `WLED_CONFIG.HTTP_BYTE_LIMIT`). -/
def HTTP_LIMIT : Nat := 5000

/-- Model of `WLED_CONFIG.LARGE_BATCH_PIXEL_THRESHOLD = 300`: above this many pixels
the transport is forced to HTTP. -/
def LARGE_BATCH_PIXEL_THRESHOLD : Nat := 300

/-- The options record of the `WledGridClient` the claims exercise. -/
structure WledCfg where
  gridWidth : Nat
  gridHeight : Nat
  segmentId : Nat
  powerOnOnWrite : Bool
  defaultTransitionMs : Option Rat
  useWebSocket : Bool
deriving Repr

/-- Model of `FlushOptions` (`opts?` of `sendPixels`); absent members are `none`. -/
structure FlushOpts where
  transitionMs : Option Rat := none
  powerOn : Option Bool := none
deriving Repr

/-- Model of `msToTtUnits`: `Math.max(0, Math.round(ms / 100))`, or `undefined`. -/
def msToTtUnits (t : Option Rat) : Option Nat :=
  t.map fun ms => (max 0 (round (ms / 100))).toNat

/-- Model of `opts?.powerOn ?? this.powerOnOnWrite`. -/
def chunkPowerOn (cfg : WledCfg) (opts : FlushOpts) : Bool :=
  opts.powerOn.getD cfg.powerOnOnWrite

/-- Model of `msToTtUnits(opts?.transitionMs ?? this.defaultTransitionMs)`. -/
def chunkTt (cfg : WledCfg) (opts : FlushOpts) : Option Nat :=
  msToTtUnits (opts.transitionMs <|> cfg.defaultTransitionMs)

/-- Serialization of one chunk under the client's configuration. -/
def chunkSer (cfg : WledCfg) (opts : FlushOpts) (pairs : List (Nat × String)) : String :=
  serializeChunk (chunkPowerOn cfg opts) cfg.segmentId (chunkTt cfg opts) pairs

/-- Whether a pixel index passes
`Number.isInteger(index) && index >= 0 && index < gridWidth * gridHeight`
(the skipped writes are the ones failing this). -/
def validIdx (W H : Nat) (q : Rat) : Prop :=
  q.den = 1 ∧ 0 ≤ q ∧ q < (W * H : Nat)

instance (W H : Nat) (q : Rat) : Decidable (validIdx W H q) := by
  unfold validIdx; infer_instance

/-- The filtering/normalizing loop of `sendPixels` that builds the `iArray`:
writes with an invalid index are skipped (`continue`), and `normalizeHex`
throwing on a color propagates out of the whole call. -/
def buildIArray (W H : Nat) : List (Rat × JsColor) → Except String (List (Nat × String))
  | [] => .ok []
  | (idx, col) :: rest =>
    if validIdx W H idx then
      match normalizeHexE col with
      | .error e => .error e
      | .ok h =>
        match buildIArray W H rest with
        | .error e => .error e
        | .ok l => .ok ((idx.num.toNat, h) :: l)
    else buildIArray W H rest

/-- The byte budget of the chosen transport. -/
def activeLimit (willUseWS : Bool) : Nat :=
  if willUseWS then WEBSOCKET_LIMIT else HTTP_LIMIT

/-- Model of `sendPixels(pixels, opts)`, up to the actual wire writes: the transport
decision and the chunks emitted, or the error `normalizeHex` throws.
`wsAvail` is the result `ensureWebSocket()` would report; the count threshold
is tested first and forces HTTP without consulting it.  The early returns
(empty input, all writes filtered out) send nothing. -/
def sendPixelsChunks (cfg : WledCfg) (opts : FlushOpts) (wsAvail : Bool)
    (pixels : List (Rat × JsColor)) : Except String (Bool × List (List (Nat × String))) :=
  match buildIArray cfg.gridWidth cfg.gridHeight pixels with
  | .error e => .error e
  | .ok [] => .ok (false, [])
  | .ok l =>
    let willUseWS :=
      if LARGE_BATCH_PIXEL_THRESHOLD < l.length then false
      else cfg.useWebSocket && wsAvail
    .ok (willUseWS,
      chunkPairs (fun ps => byteLengthUtf8 (chunkSer cfg opts ps)) (activeLimit willUseWS) l)

/-- The deployed client instance (`export const wled = new WledGridClient({...})`):
48×48 grid, default segment 0, power-on on write, zero transition,
WebSocket preferred. -/
def wledCfg : WledCfg :=
  { gridWidth := GRID_WIDTH
    gridHeight := GRID_HEIGHT
    segmentId := 0
    powerOnOnWrite := true
    defaultTransitionMs := some 0
    useWebSocket := true }

/-- Model of `sendPixels` called without options, as the sync loop does. -/
def noOpts : FlushOpts := {}

/-- A client configuration used for concrete chunker runs: like `wledCfg` but
with no default transition. -/
def testCfg : WledCfg :=
  { gridWidth := GRID_WIDTH
    gridHeight := GRID_HEIGHT
    segmentId := 0
    powerOnOnWrite := true
    defaultTransitionMs := none
    useWebSocket := true }

/-- A concrete batch: two valid writes and one out-of-range index. -/
def demoPixels : List (Rat × JsColor) :=
  [((0 : Rat), .str "ff0000"), ((5 : Rat), .str "#00ff00"), ((-3 : Rat), .str "123456")]

/-- The filtered, normalized pair list of `demoPixels`. -/
def demoPairs : List (Nat × String) := [(0, "FF0000"), (5, "00FF00")]

/-! ## Server state: cells, dirty set, drain (`src/server.ts`) -/

/-- The mutable per-room server state the claims touch: the cell array
(`gridState`, each cell `{ color: string | undefined }`) and the dirty
index set.  A JS `Set<number>` is insertion-ordered with unique members,
modelled as a duplicate-free list. -/
structure ServerState where
  gridState : List (Option String)
  dirty : List Nat
deriving Repr, DecidableEq

/-- Model of `Set.add`: a no-op on an already-present member, else appended last. -/
def setAdd (l : List Nat) (i : Nat) : List Nat :=
  if i ∈ l then l else l ++ [i]

/-- The accepted `draw` branch of `onMessage`: guards `0 ≤ x < GRID_WIDTH`,
`0 ≤ y < GRID_HEIGHT`, writes the cell at `y * GRID_WIDTH + x` and marks it
dirty.  (Coordinates are `Nat` here; the negative guards are the reason the
remaining condition is just the upper bounds.) -/
def applyDraw (s : ServerState) (x y : Nat) (color : String) : ServerState :=
  if x < GRID_WIDTH ∧ y < GRID_HEIGHT then
    { gridState := s.gridState.set (y * GRID_WIDTH + x) (some color)
      dirty := setAdd s.dirty (y * GRID_WIDTH + x) }
  else s

/-- A sequence of `draw` messages applied in order. -/
def applyDraws (s : ServerState) (x y : Nat) (colors : List String) : ServerState :=
  colors.foldl (fun t c => applyDraw t x y c) s

/-- Model of `this.gridState[idx]?.color` — `undefined` beyond the array bounds. -/
def cellColor (cells : List (Option String)) (i : Nat) : Option String :=
  (cells.get? i).join

/-- The drain of one `updateLED` tick: every dirty index is removed from the
set and mapped to its current cell color through `toHex`, in insertion
order. -/
def drainUpdates (s : ServerState) : List (Nat × String) :=
  s.dirty.map fun i => (i, toHex (cellColor s.gridState i))

/-- The state after the drain: the dirty set is empty. -/
def drainState (s : ServerState) : ServerState :=
  { s with dirty := [] }

/-! ## Room registry (`GridServer` statics, `setActiveRoom`) -/

/-- Hardware-facing events of `setActiveRoom`, in program order. -/
inductive HwEvent
  | repoint (room : String)
  | clearAll
  | markAllDirty (room : String)
deriving DecidableEq, Repr

/-- The static registry: the active-room pointer, `roomStates` and
`serverInstances` (insertion-ordered maps, modelled as association lists). -/
structure Registry where
  activeRoom : String
  roomStates : List (String × List (Option String))
  serverInstances : List (String × ServerState)
deriving Repr

/-- Replace the value at a key of an association list, where present. -/
def updateAssoc (l : List (String × ServerState)) (k : String) (v : ServerState) :
    List (String × ServerState) :=
  l.map fun p => if p.1 = k then (k, v) else p

/-- Model of `GridServer.setActiveRoom(roomId)`: `(returned boolean, new registry,
hardware events in order)`.  Already-active: success, nothing else.  Unknown
room: failure, nothing else.  Otherwise the pointer is repointed, then the
display cleared (`await wled.clearAll()`), then — when a server instance is
registered — the room's state is copied in, every cell marked dirty and the
LED loop triggered. -/
def setActiveRoomM (reg : Registry) (roomId : String) :
    Bool × Registry × List HwEvent :=
  if roomId = reg.activeRoom then (true, reg, [])
  else
    match reg.roomStates.lookup roomId with
    | none => (false, reg, [])
    | some newRoomState =>
      let reg1 : Registry := { reg with activeRoom := roomId }
      match reg1.serverInstances.lookup roomId with
      | none => (true, reg1, [.repoint roomId, .clearAll])
      | some inst =>
        let inst' : ServerState :=
          { gridState := newRoomState
            dirty := (List.range TOTAL_CELLS).foldl setAdd inst.dirty }
        (true,
          { reg1 with serverInstances := updateAssoc reg1.serverInstances roomId inst' },
          [.repoint roomId, .clearAll, .markAllDirty roomId])

/-- A concrete two-room registry: room `"a"` is active, room `"b"` is known
(empty cells) and has a registered, clean server instance. -/
def demoRegistry : Registry :=
  { activeRoom := "a"
    roomStates := [("b", List.replicate TOTAL_CELLS none)]
    serverInstances := [("b", { gridState := List.replicate TOTAL_CELLS none, dirty := [] })] }

/-! ## WebSocket session manager (`ensureWebSocket`, `sendOverWebSocket`) -/

/-- The connection state of the client: the option flag, whether a
`WebSocket` global exists, `this.ws !== null`, `this.wsOpen`,
`this.wsReadyPromise` (the id of the in-flight connect attempt), the ordered
outbound queue, and how many sockets were ever constructed. -/
structure WsSession where
  useWebSocket : Bool
  wsAvailable : Bool
  hasWs : Bool
  wsOpen : Bool
  readyPromise : Option Nat
  queue : List String
  socketsOpened : Nat
deriving Repr, DecidableEq

/-- What one `ensureWebSocket()` call does before its first suspension. -/
inductive EnsureAction
  | noWs
  | alreadyOpen
  | awaitExisting (p : Nat)
  | openNew (p : Nat)
deriving DecidableEq, Repr

/-- The synchronous head of `ensureWebSocket()`: feature guards, the
already-open fast path, joining the in-flight attempt, or constructing a new
socket and publishing its ready promise. -/
def ensureWebSocketStep (s : WsSession) (freshId : Nat) : EnsureAction × WsSession :=
  if ¬ s.useWebSocket = true then (.noWs, s)
  else if ¬ s.wsAvailable = true then (.noWs, s)
  else if s.hasWs = true ∧ s.wsOpen = true then (.alreadyOpen, s)
  else
    match s.readyPromise with
    | some p => (.awaitExisting p, s)
    | none =>
      (.openNew freshId,
        { s with hasWs := true, readyPromise := some freshId,
                 socketsOpened := s.socketsOpened + 1 })

/-- The session-level operations whose interleavings the claims reason about:
an `ensureWebSocket` call, a `sendOverWebSocket(msg)` (with the success of the
raw `ws.send`), and the `onopen`/`onclose`/`onerror` handler firings. -/
inductive SessionOp
  | ensure (freshId : Nat)
  | send (msg : String) (sendOk : Bool)
  | openEvt
  | closeEvt
  | errorEvt
deriving DecidableEq, Repr

/-- One step: the new session state and the messages put on the wire by this
step, in order.  `send` enqueues while not open (or when the raw send throws);
`onopen` marks the session open, flushes the queue in FIFO order and clears
it; `onclose`/`onerror` reset to disconnected and discard the ready promise. -/
def stepSession (s : WsSession) : SessionOp → WsSession × List String
  | .ensure freshId => ((ensureWebSocketStep s freshId).2, [])
  | .send msg sendOk =>
    if ¬ s.hasWs = true ∨ ¬ s.wsOpen = true then
      ({ s with queue := s.queue ++ [msg] }, [])
    else if sendOk then (s, [msg])
    else ({ s with queue := s.queue ++ [msg] }, [])
  | .openEvt => ({ s with wsOpen := true, queue := [] }, s.queue)
  | .closeEvt => ({ s with wsOpen := false, readyPromise := none }, [])
  | .errorEvt => ({ s with wsOpen := false, readyPromise := none }, [])

/-- A sequence of session operations, collecting all wire writes in order. -/
def runSession (s : WsSession) : List SessionOp → WsSession × List String
  | [] => (s, [])
  | op :: ops =>
    ((runSession (stepSession s op).1 ops).1,
      (stepSession s op).2 ++ (runSession (stepSession s op).1 ops).2)

theorem orientMap_involutive (o : Orientation) (w h : Int) (p : Int × Int) :
    orientMap o w h (orientMap o w h p) = p := by
  obtain ⟨x, y⟩ := p
  cases o <;> simp [orientMap]

theorem orientMap_valid (o : Orientation) (w h : Int) (p : Int × Int)
    (hp : validXY w h p) : validXY w h (orientMap o w h p) := by
  obtain ⟨x, y⟩ := p
  obtain ⟨h1, h2, h3, h4⟩ := hp
  cases o <;> simp [orientMap, validXY] at * <;> omega

theorem serpMap_involutive (s : Bool) (w : Int) (p : Int × Int) :
    serpMap s w (serpMap s w p) = p := by
  obtain ⟨x, y⟩ := p
  by_cases hc : s ∧ y % 2 = 1 <;> simp [serpMap, hc]

theorem serpMap_valid (s : Bool) (w h : Int) (p : Int × Int)
    (hp : validXY w h p) : validXY w h (serpMap s w p) := by
  obtain ⟨x, y⟩ := p
  obtain ⟨h1, h2, h3, h4⟩ := hp
  by_cases hc : s ∧ y % 2 = 1 <;> simp [serpMap, hc, validXY] at * <;> omega

theorem computeIndex_ok (x y w h : Int) (s : Bool) (o : Orientation)
    (hv : validXY w h (x, y)) :
    computeIndex x y w h s o =
      .ok ((serpMap s w (orientMap o w h (x, y))).2 * w +
        (serpMap s w (orientMap o w h (x, y))).1) := by
  obtain ⟨h1, h2, h3, h4⟩ := hv
  simp only [computeIndex]
  rw [if_neg (by push_neg; exact ⟨by omega, by omega, by omega, by omega⟩)]

theorem decodeIndex_encode (w : Int) (p : Int × Int) (hw : 0 < w)
    (h1 : 0 ≤ p.1) (h2 : p.1 < w) :
    decodeIndex w (p.2 * w + p.1) = p := by
  obtain ⟨nx, ny⟩ := p
  simp only [decodeIndex, Prod.mk.injEq] at *
  constructor
  · rw [show ny * w + nx = nx + w * ny by ring, Int.add_mul_emod_self_left]
    exact Int.emod_eq_of_lt h1 h2
  · rw [show ny * w + nx = nx + w * ny by ring,
      Int.add_mul_ediv_left _ _ (by omega : w ≠ 0),
      Int.ediv_eq_zero_of_lt h1 h2]
    omega

theorem encode_range (w h : Int) (p : Int × Int) (hv : validXY w h p) :
    0 ≤ p.2 * w + p.1 ∧ p.2 * w + p.1 < w * h := by
  obtain ⟨nx, ny⟩ := p
  obtain ⟨h1, h2, h3, h4⟩ := hv
  dsimp only at *
  constructor
  · have : 0 ≤ ny * w := mul_nonneg h3 (by omega)
    omega
  · have hle : ny * w + nx < (ny + 1) * w := by nlinarith
    have : (ny + 1) * w ≤ h * w := by
      apply mul_le_mul_of_nonneg_right (by omega) (by omega)
    nlinarith

theorem decodeIndex_valid (w h i : Int) (hw : 0 < w) (h0 : 0 ≤ i)
    (hi : i < w * h) : validXY w h (decodeIndex w i) := by
  have hx0 : 0 ≤ i % w := Int.emod_nonneg i (by omega)
  have hxw : i % w < w := Int.emod_lt_of_pos i hw
  have hd0 : 0 ≤ i / w := Int.ediv_nonneg h0 (by omega)
  have hdh : i / w < h := by
    by_contra hcon
    push_neg at hcon
    have : w * h ≤ w * (i / w) := by
      apply mul_le_mul_of_nonneg_left hcon (by omega)
    have heq := Int.emod_add_ediv i w
    nlinarith
  exact ⟨hx0, hxw, hd0, hdh⟩

theorem encode_decodeIndex (w i : Int) (hw : 0 < w) :
    (decodeIndex w i).2 * w + (decodeIndex w i).1 = i := by
  simp only [decodeIndex]
  have := Int.emod_add_ediv i w
  linarith [Int.emod_add_ediv i w]

/-- C4. For every fixed `(orientation, serpentine)` pair and positive
`width`/`height`: `computeIndex` returns a value (rather than a range error)
exactly on valid coordinates; on valid coordinates its image lies in
`[0, width*height)`; it is injective there; and every index in
`[0, width*height)` is attained — i.e. `computeIndex` restricted to the
valid coordinate space is a bijection onto `[0, width*height)`. -/
theorem computeIndex_bijection (w h : Int) (s : Bool) (o : Orientation)
    (hw : 0 < w) (hh : 0 < h) :
    (∀ x y, (∃ i, computeIndex x y w h s o = .ok i) ↔ validXY w h (x, y)) ∧
    (∀ x y i, computeIndex x y w h s o = .ok i → 0 ≤ i ∧ i < w * h) ∧
    (∀ x₁ y₁ x₂ y₂ i, computeIndex x₁ y₁ w h s o = .ok i →
      computeIndex x₂ y₂ w h s o = .ok i → x₁ = x₂ ∧ y₁ = y₂) ∧
    (∀ i, 0 ≤ i → i < w * h →
      ∃ x y, validXY w h (x, y) ∧ computeIndex x y w h s o = .ok i) := by
  have hvalid : ∀ x y, validXY w h (x, y) →
      validXY w h (serpMap s w (orientMap o w h (x, y))) := fun x y hv =>
    serpMap_valid s w h _ (orientMap_valid o w h _ hv)
  have hinv : ∀ x y, validXY w h (x, y) → ∀ i, computeIndex x y w h s o = .ok i →
      orientMap o w h (serpMap s w (decodeIndex w i)) = (x, y) := by
    intro x y hv i hok
    rw [computeIndex_ok x y w h s o hv] at hok
    injection hok with hok
    have hq := hvalid x y hv
    rw [← hok, decodeIndex_encode w _ hw hq.1 hq.2.1, serpMap_involutive,
      orientMap_involutive]
  refine ⟨?_, ?_, ?_, ?_⟩
  · intro x y
    constructor
    · intro ⟨i, hok⟩
      by_contra hcon
      have : ¬ (x < 0 ∨ x ≥ w ∨ y < 0 ∨ y ≥ h) → validXY w h (x, y) := by
        intro hr; unfold validXY; push_neg at hr; simp only []; omega
      by_cases hr : x < 0 ∨ x ≥ w ∨ y < 0 ∨ y ≥ h
      · simp only [computeIndex, if_pos hr] at hok
        exact Except.noConfusion hok
      · exact hcon (this hr)
    · intro hv
      exact ⟨_, computeIndex_ok x y w h s o hv⟩
  · intro x y i hok
    by_cases hr : x < 0 ∨ x ≥ w ∨ y < 0 ∨ y ≥ h
    · simp only [computeIndex, if_pos hr] at hok
      exact Except.noConfusion hok
    · have hv : validXY w h (x, y) := by unfold validXY; simp only []; omega
      rw [computeIndex_ok x y w h s o hv] at hok
      injection hok with hok
      rw [← hok]
      exact encode_range w h _ (hvalid x y hv)
  · intro x₁ y₁ x₂ y₂ i hok₁ hok₂
    have hv₁ : validXY w h (x₁, y₁) := by
      by_cases hr : x₁ < 0 ∨ x₁ ≥ w ∨ y₁ < 0 ∨ y₁ ≥ h
      · simp only [computeIndex, if_pos hr] at hok₁
        exact Except.noConfusion hok₁
      · unfold validXY; simp only []; omega
    have hv₂ : validXY w h (x₂, y₂) := by
      by_cases hr : x₂ < 0 ∨ x₂ ≥ w ∨ y₂ < 0 ∨ y₂ ≥ h
      · simp only [computeIndex, if_pos hr] at hok₂
        exact Except.noConfusion hok₂
      · unfold validXY; simp only []; omega
    have e₁ := hinv x₁ y₁ hv₁ i hok₁
    have e₂ := hinv x₂ y₂ hv₂ i hok₂
    rw [e₁] at e₂
    exact ⟨congrArg Prod.fst e₂, congrArg Prod.snd e₂⟩
  · intro i h0 hi
    set p := orientMap o w h (serpMap s w (decodeIndex w i)) with hp
    have hdv : validXY w h (decodeIndex w i) := decodeIndex_valid w h i hw h0 hi
    have hpv : validXY w h p :=
      orientMap_valid o w h _ (serpMap_valid s w h _ hdv)
    refine ⟨p.1, p.2, hpv, ?_⟩
    have hforward : serpMap s w (orientMap o w h (p.1, p.2)) = decodeIndex w i := by
      rw [hp]
      rw [show ((orientMap o w h (serpMap s w (decodeIndex w i))).1,
        (orientMap o w h (serpMap s w (decodeIndex w i))).2) =
        orientMap o w h (serpMap s w (decodeIndex w i)) from rfl]
      rw [orientMap_involutive, serpMap_involutive]
    rw [computeIndex_ok p.1 p.2 w h s o (by exact hpv), hforward,
      encode_decodeIndex w i hw]

/-- Witness for `computeIndex_bijection` at `w = h = 2`, serpentine,
top-right orientation. -/
theorem computeIndex_bijection_witness :
    (0 < (2 : Int)) ∧ (0 < (2 : Int)) ∧
    ((∀ x y, (∃ i, computeIndex x y 2 2 true .topRight = .ok i) ↔
        validXY 2 2 (x, y)) ∧
    (∀ x y i, computeIndex x y 2 2 true .topRight = .ok i → 0 ≤ i ∧ i < 2 * 2) ∧
    (∀ x₁ y₁ x₂ y₂ i, computeIndex x₁ y₁ 2 2 true .topRight = .ok i →
      computeIndex x₂ y₂ 2 2 true .topRight = .ok i → x₁ = x₂ ∧ y₁ = y₂) ∧
    (∀ i, 0 ≤ i → i < 2 * 2 →
      ∃ x y, validXY 2 2 (x, y) ∧ computeIndex x y 2 2 true .topRight = .ok i)) :=
  ⟨by decide, by decide, computeIndex_bijection 2 2 true .topRight (by decide) (by decide)⟩

/-! ## Character and digit lemmas -/

theorem utf8Size_eq_one (c : Char) (h : c.toNat ≤ 127) : c.utf8Size = 1 := by
  have hv : c.val ≤ 0x7F := h
  simp [Char.utf8Size, hv]

theorem ofNat_toNat_small (n : Nat) (h : n < 55296) : (Char.ofNat n).toNat = n := by
  rw [Char.ofNat, dif_pos (Or.inl h : Nat.isValidChar n)]
  rfl

theorem toUpper_toNat_le (c : Char) (h : c.toNat ≤ 127) :
    (Char.toUpper c).toNat ≤ 127 := by
  simp only [Char.toUpper]
  split
  · next hc =>
    rw [ofNat_toNat_small (c.toNat - 32) (by omega)]
    omega
  · exact h

theorem digitChar_toNat_le (m : Nat) : (Nat.digitChar m).toNat ≤ 127 := by
  by_cases h : m < 16
  · interval_cases m <;> decide
  · have he : Nat.digitChar m = '*' := by
      unfold Nat.digitChar
      rw [if_neg (by omega : ¬ m = 0), if_neg (by omega : ¬ m = 1),
        if_neg (by omega : ¬ m = 2), if_neg (by omega : ¬ m = 3),
        if_neg (by omega : ¬ m = 4), if_neg (by omega : ¬ m = 5),
        if_neg (by omega : ¬ m = 6), if_neg (by omega : ¬ m = 7),
        if_neg (by omega : ¬ m = 8), if_neg (by omega : ¬ m = 9),
        if_neg (by omega : ¬ m = 10), if_neg (by omega : ¬ m = 11),
        if_neg (by omega : ¬ m = 12), if_neg (by omega : ¬ m = 13),
        if_neg (by omega : ¬ m = 14), if_neg (by omega : ¬ m = 15)]
    rw [he]; decide

theorem hexDigitChar_toNat_le (c : Char) (h : isHexDigitChar c = true) :
    c.toNat ≤ 127 := by
  have hp := of_decide_eq_true h
  rcases hp with ⟨_, h2⟩ | ⟨_, h2⟩ | ⟨_, h2⟩ <;>
    exact Nat.le_trans (h2 : c.toNat ≤ _) (by decide)

theorem hexDigitChar_toUpper (c : Char) (h : isHexDigitChar c = true) :
    isUpperHexChar (Char.toUpper c) = true := by
  have hp := of_decide_eq_true h
  apply decide_eq_true
  simp only [Char.toUpper]
  rcases hp with ⟨h1, h2⟩ | ⟨h1, h2⟩ | ⟨h1, h2⟩
  · rw [if_neg (by
      have : c.toNat ≤ 57 := h2
      omega)]
    exact Or.inl ⟨h1, h2⟩
  · have hl : (97 : Nat) ≤ c.toNat := h1
    have hu : c.toNat ≤ 102 := h2
    rw [if_pos ⟨hl, by omega⟩]
    have hv := ofNat_toNat_small (c.toNat - 32) (by omega)
    refine Or.inr ⟨?_, ?_⟩
    · show (65 : Nat) ≤ (Char.ofNat (c.toNat - 32)).toNat
      rw [hv]
      omega
    · show (Char.ofNat (c.toNat - 32)).toNat ≤ (70 : Nat)
      rw [hv]
      omega
  · rw [if_neg (by
      have : c.toNat ≤ 70 := h2
      omega)]
    exact Or.inr ⟨h1, h2⟩

theorem toDigitsCore_mem (b : Nat) (hb : 0 < b) (fuel : Nat) :
    ∀ (n : Nat) (ds : List Char) (c : Char), c ∈ Nat.toDigitsCore b fuel n ds →
      c ∈ ds ∨ ∃ m, m < b ∧ c = Nat.digitChar m := by
  induction fuel with
  | zero => intro n ds c hc; exact Or.inl hc
  | succ fuel ih =>
    intro n ds c hc
    simp only [Nat.toDigitsCore] at hc
    by_cases hz : n / b = 0
    · rw [if_pos hz] at hc
      rcases List.mem_cons.mp hc with h | h
      · exact Or.inr ⟨n % b, Nat.mod_lt n hb, h⟩
      · exact Or.inl h
    · rw [if_neg hz] at hc
      rcases ih (n / b) (Nat.digitChar (n % b) :: ds) c hc with h | h
      · rcases List.mem_cons.mp h with h' | h'
        · exact Or.inr ⟨n % b, Nat.mod_lt n hb, h'⟩
        · exact Or.inl h'
      · exact Or.inr h

theorem toDigits_hex_mem (n : Nat) (c : Char) (hc : c ∈ Nat.toDigits 16 n) :
    isHexDigitChar c = true := by
  rcases toDigitsCore_mem 16 (by decide) (n + 1) n [] c hc with h | ⟨m, hm, rfl⟩
  · exact absurd h (List.not_mem_nil c)
  · interval_cases m <;> decide

theorem padStart2_mk (l : List Char) :
    padStart2 ⟨l⟩ = ⟨List.replicate (2 - l.length) '0' ++ l⟩ := by
  unfold padStart2
  have hsl : (String.mk l).length = l.length := rfl
  by_cases h : 2 ≤ (String.mk l).length
  · rw [if_pos h]
    have h0 : 2 - l.length = 0 := by omega
    rw [h0, List.replicate_zero, List.nil_append]
  · rw [if_neg h]
    rfl

theorem byteToHex2_shape (n : Nat) (h : n ≤ 255) :
    (byteToHex2 n).length = 2 ∧ ∀ c ∈ (byteToHex2 n).data, isHexDigitChar c = true := by
  have hlen : (Nat.toDigits 16 n).length ≤ 2 :=
    Nat.toDigitsCore_length 16 (by decide) (n + 1) n 2 (by omega) (by decide)
  have hdata : (byteToHex2 n).data =
      List.replicate (2 - (Nat.toDigits 16 n).length) '0' ++ Nat.toDigits 16 n := by
    show (padStart2 ⟨Nat.toDigits 16 n⟩).data = _
    rw [padStart2_mk]
  constructor
  · show (byteToHex2 n).data.length = 2
    rw [hdata]
    have hpos : 1 ≤ (Nat.toDigits 16 n).length := by
      show 1 ≤ (Nat.toDigitsCore 16 (n + 1) n []).length
      simp only [Nat.toDigitsCore]
      by_cases hz : n / 16 = 0
      · rw [if_pos hz]
        simp
      · rw [if_neg hz]
        rw [Nat.toDigitsCore_lens_eq]
        omega
    simp only [List.length_append, List.length_replicate]
    omega
  · intro c hc
    rw [hdata] at hc
    rcases List.mem_append.mp hc with h' | h'
    · rw [List.eq_of_mem_replicate h']
      decide
    · exact toDigits_hex_mem n c h'

theorem clampByte_le (q : Rat) : clampByte q ≤ 255 := by
  unfold clampByte
  have h1 : min 255 (round q) ≤ 255 := min_le_left _ _
  have : max 0 (min 255 (round q)) ≤ 255 := by
    apply max_le (by omega) h1
  omega

/-- The output of the strict normalizer is always a 6-character uppercase hex
string. -/
theorem normalizeHexE_shape (x : JsColor) (h : String) (hk : normalizeHexE x = .ok h) :
    h.length = 6 ∧ ∀ c ∈ h.data, isUpperHexChar c = true := by
  cases x with
  | str s =>
    simp only [normalizeHexE] at hk
    by_cases ht : hexTest6 (stripHash s) = true
    · rw [if_pos ht] at hk
      injection hk with hk
      have hlen : (stripHash s).length = 6 := by
        have := (Bool.and_eq_true _ _).mp ht
        exact eq_of_beq this.1
      have hall : ∀ c ∈ (stripHash s).data, isHexDigitChar c = true := by
        have := (Bool.and_eq_true _ _).mp ht
        exact fun c hc => List.all_eq_true.mp this.2 c hc
      subst hk
      constructor
      · show ((stripHash s).data.map Char.toUpper).length = 6
        rw [List.length_map]
        exact hlen
      · intro c hc
        have hc' := hc
        rw [show (jsToUpper (stripHash s)).data = (stripHash s).data.map Char.toUpper
          from rfl] at hc'
        rcases List.mem_map.mp hc' with ⟨a, ha, rfl⟩
        exact hexDigitChar_toUpper a (hall a ha)
    · rw [if_neg ht] at hk
      exact Except.noConfusion hk
  | rgb r g b =>
    simp only [normalizeHexE] at hk
    injection hk with hk
    subst hk
    have s1 := byteToHex2_shape (clampByte r) (clampByte_le r)
    have s2 := byteToHex2_shape (clampByte g) (clampByte_le g)
    have s3 := byteToHex2_shape (clampByte b) (clampByte_le b)
    have hdata : (byteToHex2 (clampByte r) ++ byteToHex2 (clampByte g) ++
        byteToHex2 (clampByte b)).data =
        (byteToHex2 (clampByte r)).data ++ (byteToHex2 (clampByte g)).data ++
        (byteToHex2 (clampByte b)).data := rfl
    constructor
    · show ((byteToHex2 (clampByte r) ++ byteToHex2 (clampByte g) ++
        byteToHex2 (clampByte b)).data.map Char.toUpper).length = 6
      rw [List.length_map, hdata]
      simp only [List.length_append]
      have e1 : (byteToHex2 (clampByte r)).data.length = 2 := s1.1
      have e2 : (byteToHex2 (clampByte g)).data.length = 2 := s2.1
      have e3 : (byteToHex2 (clampByte b)).data.length = 2 := s3.1
      omega
    · intro c hc
      rw [show (jsToUpper (byteToHex2 (clampByte r) ++ byteToHex2 (clampByte g) ++
        byteToHex2 (clampByte b))).data =
        (byteToHex2 (clampByte r) ++ byteToHex2 (clampByte g) ++
          byteToHex2 (clampByte b)).data.map Char.toUpper from rfl, hdata] at hc
      rcases List.mem_map.mp hc with ⟨a, ha, rfl⟩
      rcases List.mem_append.mp ha with ha' | ha'
      · rcases List.mem_append.mp ha' with ha'' | ha''
        · exact hexDigitChar_toUpper a (s1.2 a ha'')
        · exact hexDigitChar_toUpper a (s2.2 a ha'')
      · exact hexDigitChar_toUpper a (s3.2 a ha')

/-! ## C7: the color normalizer -/

/-- C7 counterexample. The claim says `normalizeHex("#abc")` returns
`"AABBCC"`; the strict normalizer's regex requires exactly six hex digits
after the optional `#`, so `"#abc"` raises the validation error instead. -/
theorem normalizeHex_abc_cex :
    normalizeHexE (JsColor.str "#abc") = .error "Invalid hex color: #abc" ∧
    (Except.error "Invalid hex color: #abc" : Except String String) ≠
      .ok "AABBCC" :=
  ⟨rfl, fun h => Except.noConfusion h⟩

/-- C7 (amended). The strict color normalizer accepts a 6-hex string
(optionally `#`-prefixed, case-insensitive) or an `{r,g,b}` triple with each
channel clamped to `[0,255]` and rounded; it produces an uppercase
6-character hex string and fails with a validation error on any other string —
including 3-digit hex: `normalizeHex("#abc")` raises a validation error, and
it is the loose `toHex` that maps `"#abc"` to `"AABBCC"`;
`normalizeHex({r:255,g:0,b:10})` returns `"FF000A"` and `normalizeHex("zzz")`
raises a validation error. -/
theorem normalizeHex_spec :
    (∀ x h, normalizeHexE x = .ok h →
      h.length = 6 ∧ ∀ c ∈ h.data, isUpperHexChar c = true) ∧
    (∀ s, hexTest6 (stripHash s) = true →
      normalizeHexE (.str s) = .ok (jsToUpper (stripHash s))) ∧
    (∀ s, hexTest6 (stripHash s) = false →
      normalizeHexE (.str s) = .error s!"Invalid hex color: {s}") ∧
    (∀ r g b : Rat, normalizeHexE (.rgb r g b) =
      .ok (jsToUpper (byteToHex2 (clampByte r) ++ byteToHex2 (clampByte g) ++
        byteToHex2 (clampByte b)))) ∧
    normalizeHexE (.str "#abc") = .error "Invalid hex color: #abc" ∧
    toHex (some "#abc") = "AABBCC" ∧
    normalizeHexE (.rgb 255 0 10) = .ok "FF000A" ∧
    normalizeHexE (.str "zzz") = .error "Invalid hex color: zzz" ∧
    normalizeHexE (.str "aBcDeF") = .ok "ABCDEF" := by
  refine ⟨normalizeHexE_shape, ?_, ?_, ?_, ?_, ?_, ?_, ?_, ?_⟩
  · intro s ht
    simp only [normalizeHexE, ht, if_pos]
  · intro s ht
    simp only [normalizeHexE, ht, Bool.false_eq_true, if_false]
  · intro r g b
    rfl
  · rfl
  · rfl
  · show normalizeHexE (.rgb 255 0 10) = .ok "FF000A"
    have h1 : round (255 : Rat) = 255 := by norm_num
    have h2 : round (0 : Rat) = 0 := by norm_num
    have h3 : round (10 : Rat) = 10 := by norm_num
    simp only [normalizeHexE, clampByte, h1, h2, h3]
    rfl
  · rfl
  · rfl

/-! ## C10: unset cells drain as black -/

/-- C10. `toHex` maps `undefined`/`null`/empty colors to `"000000"`, and a
drained dirty cell with no color therefore contributes a black pixel update —
one update per dirty index, none skipped. -/
theorem toHex_unset_black :
    toHex none = "000000" ∧ toHex (some "") = "000000" ∧
    (∀ (s : ServerState) (i : Nat), i ∈ s.dirty →
      cellColor s.gridState i = none → (i, "000000") ∈ drainUpdates s) ∧
    (∀ s : ServerState, (drainUpdates s).length = s.dirty.length) := by
  refine ⟨rfl, rfl, ?_, ?_⟩
  · intro s i hi hnone
    unfold drainUpdates
    exact List.mem_map.mpr ⟨i, hi, by rw [hnone]; rfl⟩
  · intro s
    unfold drainUpdates
    exact List.length_map _ _

/-! ## C5: setActiveRoom no-op and unknown-room failure -/

/-- C5. `setActiveRoom` on the already-active room returns success with no
hardware events and no state change; on an unknown room id it returns failure
with the registry (active pointer, room states, instances) and hardware
untouched. -/
theorem setActiveRoom_noop_unknown :
    (∀ (reg : Registry) (roomId : String), roomId = reg.activeRoom →
      setActiveRoomM reg roomId = (true, reg, [])) ∧
    (∀ (reg : Registry) (roomId : String), roomId ≠ reg.activeRoom →
      reg.roomStates.lookup roomId = none →
      setActiveRoomM reg roomId = (false, reg, [])) := by
  constructor
  · intro reg roomId h
    unfold setActiveRoomM
    rw [if_pos h]
  · intro reg roomId h hnone
    unfold setActiveRoomM
    rw [if_neg h, hnone]

/-! ## C9: session manager idempotent connect and FIFO queue -/

/-- C9. While a connect attempt is in flight (`readyPromise` set), a
further `ensureWebSocket` call changes nothing — in particular it opens no
second socket — and, when the open/available guards pass, it awaits exactly
the in-flight attempt.  A new socket is only ever opened when no attempt is in
flight.  Messages sent while the session is not open are appended to the
queue in order, and the `onopen` handler flushes exactly the queued messages
in FIFO order and clears the queue. -/
theorem sessionManager_spec :
    (∀ (s : WsSession) (p freshId : Nat), s.readyPromise = some p →
      stepSession s (.ensure freshId) = (s, [])) ∧
    (∀ (s : WsSession) (p freshId : Nat), s.readyPromise = some p →
      s.useWebSocket = true → s.wsAvailable = true →
      ¬ (s.hasWs = true ∧ s.wsOpen = true) →
      ensureWebSocketStep s freshId = (.awaitExisting p, s)) ∧
    (∀ (s : WsSession) (freshId p' : Nat),
      (ensureWebSocketStep s freshId).1 = .openNew p' → s.readyPromise = none) ∧
    (∀ (s : WsSession) (msg : String) (ok : Bool), s.wsOpen = false →
      stepSession s (.send msg ok) = ({ s with queue := s.queue ++ [msg] }, [])) ∧
    (∀ (s : WsSession) (msgs : List String), s.wsOpen = false →
      runSession s (msgs.map (fun m => SessionOp.send m true) ++ [SessionOp.openEvt]) =
        ({ s with wsOpen := true, queue := [] }, s.queue ++ msgs)) := by
  have hsend : ∀ (s : WsSession) (msg : String) (ok : Bool), s.wsOpen = false →
      stepSession s (.send msg ok) = ({ s with queue := s.queue ++ [msg] }, []) := by
    intro s msg ok h
    simp only [stepSession]
    rw [if_pos (Or.inr (by simp [h]))]
  refine ⟨?_, ?_, ?_, hsend, ?_⟩
  · intro s p freshId h
    simp only [stepSession, ensureWebSocketStep, h]
    split_ifs <;> rfl
  · intro s p freshId h h1 h2 h3
    simp only [ensureWebSocketStep]
    rw [if_neg (by simp [h1]), if_neg (by simp [h2]), if_neg h3, h]
  · intro s freshId p' h
    by_contra hne
    rcases Option.ne_none_iff_exists'.mp hne with ⟨p, hp⟩
    simp only [ensureWebSocketStep, hp] at h
    split_ifs at h <;> exact EnsureAction.noConfusion h
  · intro s msgs
    induction msgs generalizing s with
    | nil =>
      intro h
      simp only [List.map_nil, List.nil_append, runSession, stepSession]
    | cons m rest ih =>
      intro h
      simp only [List.map_cons, List.cons_append, runSession, List.append_eq,
        hsend s m true h]
      rw [ih { s with queue := s.queue ++ [m] } h]
      simp

/-! ## C6: the room-switch sequence -/

theorem mem_setAdd_self (l : List Nat) (i : Nat) : i ∈ setAdd l i := by
  unfold setAdd
  by_cases h : i ∈ l
  · rw [if_pos h]; exact h
  · rw [if_neg h]; exact List.mem_append.mpr (Or.inr (List.mem_singleton.mpr rfl))

theorem mem_setAdd_of_mem (l : List Nat) (i j : Nat) (h : j ∈ l) : j ∈ setAdd l i := by
  unfold setAdd
  by_cases hm : i ∈ l
  · rw [if_pos hm]; exact h
  · rw [if_neg hm]; exact List.mem_append.mpr (Or.inl h)

theorem mem_foldl_setAdd (l : List Nat) :
    ∀ (init : List Nat) (i : Nat), i ∈ init ∨ i ∈ l → i ∈ l.foldl setAdd init := by
  induction l with
  | nil =>
    intro init i h
    rcases h with h | h
    · exact h
    · exact absurd h (List.not_mem_nil i)
  | cons a l ih =>
    intro init i h
    show i ∈ l.foldl setAdd (setAdd init a)
    rcases h with h | h
    · exact ih (setAdd init a) i (Or.inl (mem_setAdd_of_mem init a i h))
    · rcases List.mem_cons.mp h with rfl | h'
      · exact ih (setAdd init i) i (Or.inl (mem_setAdd_self init i))
      · exact ih (setAdd init a) i (Or.inr h')

theorem lookup_updateAssoc (l : List (String × ServerState)) (k : String)
    (v w : ServerState) (h : l.lookup k = some w) :
    (updateAssoc l k v).lookup k = some v := by
  induction l with
  | nil => exact absurd h (by simp [List.lookup])
  | cons p l ih =>
    obtain ⟨a, b⟩ := p
    simp only [updateAssoc, List.map_cons] at *
    by_cases hk : a = k
    · subst hk
      rw [if_pos rfl]
      show List.lookup a ((a, v) :: _) = some v
      simp [List.lookup]
    · rw [if_neg (by simpa using hk)]
      have hbeq : (k == a) = false := beq_eq_false_iff_ne.mpr (fun he => hk he.symm)
      show List.lookup k ((a, b) :: _) = some v
      simp only [List.lookup, hbeq] at h ⊢
      exact ih h

/-- C6 counterexample. In the code the active-room pointer is repointed
*before* the blocking hardware clear: the first hardware-facing event of a
successful switch is the repoint, not the clear, so the claimed
clear-then-repoint order does not hold. -/
theorem setActiveRoom_order_cex :
    (setActiveRoomM demoRegistry "b").2.2 =
      [HwEvent.repoint "b", HwEvent.clearAll, HwEvent.markAllDirty "b"] ∧
    (setActiveRoomM demoRegistry "b").2.2.head? = some (HwEvent.repoint "b") ∧
    HwEvent.repoint "b" ≠ HwEvent.clearAll :=
  ⟨rfl, rfl, fun h => HwEvent.noConfusion h⟩

/-- C6 (amended). On a successful switch to a different known room with a
registered server instance, `setActiveRoom` repoints the active-room pointer
first, then performs the blocking full-display hardware clear, then installs
the room's saved cells and marks every cell of the newly active room dirty —
the events occur in exactly that order, so the clear does *not* precede the
repoint, and exclusion of the new room's loop during the clear is not
established by this ordering. -/
theorem setActiveRoom_switch_sequence (reg : Registry) (roomId : String)
    (st : List (Option String)) (inst : ServerState)
    (hne : roomId ≠ reg.activeRoom)
    (hst : reg.roomStates.lookup roomId = some st)
    (hinst : reg.serverInstances.lookup roomId = some inst) :
    setActiveRoomM reg roomId =
      (true,
        { activeRoom := roomId
          roomStates := reg.roomStates
          serverInstances := updateAssoc reg.serverInstances roomId
            { gridState := st
              dirty := (List.range TOTAL_CELLS).foldl setAdd inst.dirty } },
        [HwEvent.repoint roomId, HwEvent.clearAll, HwEvent.markAllDirty roomId]) ∧
    ((setActiveRoomM reg roomId).2.1.serverInstances.lookup roomId =
      some { gridState := st
             dirty := (List.range TOTAL_CELLS).foldl setAdd inst.dirty }) ∧
    (∀ i, i < TOTAL_CELLS → i ∈ (List.range TOTAL_CELLS).foldl setAdd inst.dirty) := by
  have heq : setActiveRoomM reg roomId =
      (true,
        { activeRoom := roomId
          roomStates := reg.roomStates
          serverInstances := updateAssoc reg.serverInstances roomId
            { gridState := st
              dirty := (List.range TOTAL_CELLS).foldl setAdd inst.dirty } },
        [HwEvent.repoint roomId, HwEvent.clearAll, HwEvent.markAllDirty roomId]) := by
    unfold setActiveRoomM
    rw [if_neg hne, hst]
    simp only [hinst]
  refine ⟨heq, ?_, ?_⟩
  · rw [heq]
    exact lookup_updateAssoc reg.serverInstances roomId _ inst hinst
  · intro i hi
    exact mem_foldl_setAdd (List.range TOTAL_CELLS) inst.dirty i
      (Or.inr (List.mem_range.mpr hi))

/-- Witness for `setActiveRoom_switch_sequence` on the concrete
`demoRegistry`. -/
theorem setActiveRoom_switch_witness :
    ("b" ≠ demoRegistry.activeRoom) ∧
    demoRegistry.roomStates.lookup "b" = some (List.replicate TOTAL_CELLS none) ∧
    demoRegistry.serverInstances.lookup "b" =
      some { gridState := List.replicate TOTAL_CELLS none, dirty := [] } ∧
    (setActiveRoomM demoRegistry "b").1 = true :=
  ⟨by decide, rfl, rfl, by
    rw [(setActiveRoom_switch_sequence demoRegistry "b"
      (List.replicate TOTAL_CELLS none)
      { gridState := List.replicate TOTAL_CELLS none, dirty := [] }
      (by decide) rfl rfl).1]⟩

/-! ## C1: last-writer-wins coalescing -/

theorem setAdd_nodup (l : List Nat) (i : Nat) (h : l.Nodup) : (setAdd l i).Nodup := by
  unfold setAdd
  by_cases hm : i ∈ l
  · rw [if_pos hm]; exact h
  · rw [if_neg hm]
    exact List.Nodup.append h (List.nodup_singleton i)
      (fun a ha hb => hm (List.mem_singleton.mp hb ▸ ha))

theorem setAdd_idem (l : List Nat) (i : Nat) : setAdd (setAdd l i) i = setAdd l i := by
  unfold setAdd
  by_cases hm : i ∈ l
  · rw [if_pos hm, if_pos hm]
  · rw [if_neg hm, if_pos (List.mem_append.mpr (Or.inr (List.mem_singleton.mpr rfl)))]

theorem applyDraws_shape (x y : Nat) (hx : x < GRID_WIDTH) (hy : y < GRID_HEIGHT) :
    ∀ (cs : List String) (c : String) (s : ServerState),
      applyDraws s x y (c :: cs) =
        { gridState := s.gridState.set (y * GRID_WIDTH + x) (some (cs.getLastD c))
          dirty := setAdd s.dirty (y * GRID_WIDTH + x) } := by
  intro cs
  induction cs with
  | nil =>
    intro c s
    show applyDraw s x y c = _
    unfold applyDraw
    rw [if_pos ⟨hx, hy⟩]
    rfl
  | cons c' cs' ih =>
    intro c s
    show applyDraws (applyDraw s x y c) x y (c' :: cs') = _
    rw [ih c' (applyDraw s x y c)]
    unfold applyDraw
    rw [if_pos ⟨hx, hy⟩]
    simp only [List.set_set, setAdd_idem]
    rw [List.getLastD_cons]

theorem cellColor_set (cells : List (Option String)) (i : Nat) (v : String)
    (h : i < cells.length) :
    cellColor (cells.set i (some v)) i = some v := by
  unfold cellColor
  rw [List.get?_set_eq_of_lt (some v) h]
  rfl

theorem filter_beq_of_nodup (i : Nat) :
    ∀ (l : List Nat), l.Nodup → i ∈ l → l.filter (fun j => j == i) = [i] := by
  intro l
  induction l with
  | nil => intro _ hm; exact absurd hm (List.not_mem_nil i)
  | cons a l ih =>
    intro hnd hm
    have hnd' := List.nodup_cons.mp hnd
    rcases List.mem_cons.mp hm with heq | hm'
    · subst heq
      rw [List.filter_cons_of_pos (by simp)]
      have : l.filter (fun j => j == i) = [] := by
        apply List.filter_eq_nil_iff.mpr
        intro b hb
        simp only [beq_iff_eq]
        exact fun he => hnd'.1 (he ▸ hb)
      rw [this]
    · have hne : (a == i) = false := by
        apply beq_eq_false_iff_ne.mpr
        exact fun he => hnd'.1 (he ▸ hm')
      rw [List.filter_cons_of_neg (by simp [hne])]
      exact ih hnd'.2 hm'

/-- C1. Any nonempty sequence of accepted `draw` writes to the same cell
within one flush interval coalesces: the next drain emits exactly one pixel
update for that cell index, and its color is the `toHex` normalization of the
last write's color, read from the current cell array. -/
theorem draw_coalescing (s : ServerState) (x y : Nat) (c : String) (cs : List String)
    (hlen : s.gridState.length = TOTAL_CELLS) (hnd : s.dirty.Nodup)
    (hx : x < GRID_WIDTH) (hy : y < GRID_HEIGHT) :
    (drainUpdates (applyDraws s x y (c :: cs))).filter
        (fun p => p.1 == y * GRID_WIDTH + x) =
      [(y * GRID_WIDTH + x, toHex (some (cs.getLastD c)))] := by
  set i := y * GRID_WIDTH + x with hi
  have hilt : i < TOTAL_CELLS := by
    have hw : GRID_WIDTH = 48 := rfl
    have hh : GRID_HEIGHT = 48 := rfl
    have ht : TOTAL_CELLS = 48 * 48 := rfl
    rw [hi, hw, ht]
    rw [hw] at hx
    rw [hh] at hy
    omega
  rw [applyDraws_shape x y hx hy cs c s]
  unfold drainUpdates
  rw [List.map_filter (p := fun p => p.1 == i)
    (f := fun j => (j, toHex (cellColor (s.gridState.set i (some (cs.getLastD c))) j)))]
  have hfeq : ((fun p => p.1 == i) ∘
      (fun j => (j, toHex (cellColor (s.gridState.set i (some (cs.getLastD c))) j)))) =
      fun j => j == i := rfl
  rw [hfeq]
  rw [filter_beq_of_nodup i (setAdd s.dirty i) (setAdd_nodup s.dirty i hnd)
    (mem_setAdd_self s.dirty i)]
  simp only [List.map_cons, List.map_nil]
  rw [cellColor_set s.gridState i (cs.getLastD c) (by rw [hlen]; exact hilt)]

/-- Witness for `draw_coalescing`: three writes to cell `(1, 2)` of an empty
grid. -/
theorem draw_coalescing_witness :
    (List.replicate TOTAL_CELLS (none : Option String)).length = TOTAL_CELLS ∧
    ([] : List Nat).Nodup ∧ 1 < GRID_WIDTH ∧ 2 < GRID_HEIGHT ∧
    (drainUpdates (applyDraws { gridState := List.replicate TOTAL_CELLS none, dirty := [] }
        1 2 ["#f00", "rgb(1,2,3)", "00ff00"])).filter
        (fun p => p.1 == 2 * GRID_WIDTH + 1) =
      [(2 * GRID_WIDTH + 1, toHex (some (["rgb(1,2,3)", "00ff00"].getLastD "#f00")))] :=
  ⟨by simp, List.nodup_nil, by decide, by decide,
    draw_coalescing { gridState := List.replicate TOTAL_CELLS none, dirty := [] }
      1 2 "#f00" ["rgb(1,2,3)", "00ff00"] (by simp) List.nodup_nil
      (by decide) (by decide)⟩

/-! ## C2/C3/C8: the chunker and transport selection -/

theorem chunkLen_fits (ser : List (Nat × String) → Nat) (limit : Nat) :
    ∀ (rest acc : List (Nat × String)), 1 ≤ chunkLen ser limit acc rest →
      ser (acc ++ rest.take (chunkLen ser limit acc rest)) ≤ limit := by
  intro rest
  induction rest with
  | nil => intro acc h; simp [chunkLen] at h
  | cons p rest' ih =>
    intro acc h
    by_cases hfit : ser (acc ++ [p]) ≤ limit
    · have hk : chunkLen ser limit acc (p :: rest') =
          1 + chunkLen ser limit (acc ++ [p]) rest' := by
        conv_lhs => rw [chunkLen]
        rw [if_pos hfit]
      rw [hk]
      by_cases hz : chunkLen ser limit (acc ++ [p]) rest' = 0
      · rw [hz]
        simpa using hfit
      · have h1 : 1 ≤ chunkLen ser limit (acc ++ [p]) rest' := by omega
        have hrec := ih (acc ++ [p]) h1
        have harr : acc ++ (p :: rest').take (1 + chunkLen ser limit (acc ++ [p]) rest') =
            (acc ++ [p]) ++ rest'.take (chunkLen ser limit (acc ++ [p]) rest') := by
          rw [show 1 + chunkLen ser limit (acc ++ [p]) rest' =
            chunkLen ser limit (acc ++ [p]) rest' + 1 by omega]
          rw [List.take_succ_cons]
          rw [List.append_cons]
        rw [harr]
        exact hrec
    · have hzero : chunkLen ser limit acc (p :: rest') = 0 := by
        conv_lhs => rw [chunkLen]
        rw [if_neg hfit]
      omega

theorem chunkLen_zero_over (ser : List (Nat × String) → Nat) (limit : Nat)
    (p : Nat × String) (rest : List (Nat × String))
    (h : chunkLen ser limit [] (p :: rest) = 0) : limit < ser [p] := by
  by_contra hle
  push_neg at hle
  have hpos : chunkLen ser limit [] (p :: rest) =
      1 + chunkLen ser limit ([] ++ [p]) rest := by
    conv_lhs => rw [chunkLen]
    rw [if_pos (by simpa using hle)]
  omega

theorem chunkPairsCore_join (ser : List (Nat × String) → Nat) (limit : Nat) :
    ∀ (fuel : Nat) (l : List (Nat × String)), l.length ≤ fuel →
      (chunkPairsCore ser limit fuel l).join = l := by
  intro fuel
  induction fuel with
  | zero =>
    intro l hl
    have hl0 : l = [] := List.length_eq_zero.mp (Nat.le_zero.mp hl)
    subst hl0
    rfl
  | succ fuel ih =>
    intro l hl
    cases l with
    | nil => rfl
    | cons p rest =>
      set k := max (chunkLen ser limit [] (p :: rest)) 1 with hk
      have hk1 : 1 ≤ k := le_max_right _ 1
      show ((p :: rest).take k :: chunkPairsCore ser limit fuel ((p :: rest).drop k)).join
        = p :: rest
      rw [show ((p :: rest).take k ::
          chunkPairsCore ser limit fuel ((p :: rest).drop k)).join =
          (p :: rest).take k ++
            (chunkPairsCore ser limit fuel ((p :: rest).drop k)).join from rfl]
      rw [ih ((p :: rest).drop k) (by
        rw [List.length_drop]
        simp only [List.length_cons] at hl ⊢
        omega)]
      exact List.take_append_drop k (p :: rest)

theorem chunkPairsCore_budget (ser : List (Nat × String) → Nat) (limit : Nat) :
    ∀ (fuel : Nat) (l : List (Nat × String)), l.length ≤ fuel →
      ∀ ch ∈ chunkPairsCore ser limit fuel l,
        ch ≠ [] ∧ (ser ch ≤ limit ∨ (ch.length = 1 ∧ limit < ser ch)) := by
  intro fuel
  induction fuel with
  | zero =>
    intro l hl ch hch
    rw [List.length_eq_zero.mp (Nat.le_zero.mp hl)] at hch
    exact absurd hch (List.not_mem_nil ch)
  | succ fuel ih =>
    intro l hl ch hch
    cases l with
    | nil => exact absurd hch (List.not_mem_nil ch)
    | cons p rest =>
      set k0 := chunkLen ser limit [] (p :: rest) with hk0
      set k := max k0 1 with hk
      have hk1 : 1 ≤ k := le_max_right _ 1
      have hch' : ch ∈ (p :: rest).take k ::
          chunkPairsCore ser limit fuel ((p :: rest).drop k) := hch
      rcases List.mem_cons.mp hch' with rfl | hmem
      · constructor
        · have htake : (p :: rest).take k = p :: rest.take (k - 1) := by
            rw [show k = (k - 1) + 1 by omega, List.take_succ_cons]
            simp
          rw [htake]
          exact List.cons_ne_nil _ _
        · by_cases hz : k0 = 0
          · have hk1' : k = 1 := by rw [hk, hz]; rfl
            have hover := chunkLen_zero_over ser limit p rest (hk0 ▸ hz)
            right
            rw [hk1']
            exact ⟨rfl, hover⟩
          · have hkk : k = k0 := by omega
            left
            have := chunkLen_fits ser limit (p :: rest) [] (by omega)
            simpa [hkk, ← hk0] using this
      · exact ih ((p :: rest).drop k) (by
          rw [List.length_drop]
          simp only [List.length_cons] at hl ⊢
          omega) ch hmem

theorem chunkPairs_ne_nil (ser : List (Nat × String) → Nat) (limit : Nat)
    (p : Nat × String) (rest : List (Nat × String)) :
    chunkPairs ser limit (p :: rest) ≠ [] := by
  show chunkPairsCore ser limit (rest.length + 1) (p :: rest) ≠ []
  exact List.cons_ne_nil _ _

theorem validIdx_num_lt (W H : Nat) (q : Rat) (h : validIdx W H q) :
    q.num.toNat < W * H := by
  obtain ⟨h1, h2, h3⟩ := h
  have hq : (q.num : Rat) = q := Rat.den_eq_one_iff q |>.mp h1
  have h2' : 0 ≤ q.num := by rw [← hq] at h2; exact_mod_cast h2
  have h3' : q.num < ((W * H : Nat) : Int) := by
    rw [← hq] at h3; exact_mod_cast h3
  omega

theorem upperHexChar_toNat_le (c : Char) (h : isUpperHexChar c = true) :
    c.toNat ≤ 127 := by
  have hp := of_decide_eq_true h
  rcases hp with ⟨_, h2⟩ | ⟨_, h2⟩ <;>
    exact Nat.le_trans (h2 : c.toNat ≤ _) (by decide)

theorem buildIArray_pairs (W H : Nat) :
    ∀ (pixels : List (Rat × JsColor)) (l : List (Nat × String)),
      buildIArray W H pixels = .ok l →
      ∀ p ∈ l, p.1 < W * H ∧ p.2.length = 6 ∧ ∀ c ∈ p.2.data, c.toNat ≤ 127 := by
  intro pixels
  induction pixels with
  | nil =>
    intro l h p hp
    simp only [buildIArray] at h
    injection h with h
    subst h
    exact absurd hp (List.not_mem_nil p)
  | cons px rest ih =>
    intro l h p hp
    obtain ⟨idx, col⟩ := px
    simp only [buildIArray] at h
    by_cases hv : validIdx W H idx
    · rw [if_pos hv] at h
      cases hnh : normalizeHexE col with
      | error e => rw [hnh] at h; exact Except.noConfusion h
      | ok hx =>
        rw [hnh] at h
        cases hb : buildIArray W H rest with
        | error e => rw [hb] at h; exact Except.noConfusion h
        | ok l' =>
          rw [hb] at h
          injection h with h
          subst h
          rcases List.mem_cons.mp hp with rfl | hp'
          · refine ⟨validIdx_num_lt W H idx hv, ?_, ?_⟩
            · exact (normalizeHexE_shape col hx hnh).1
            · intro c hc
              exact upperHexChar_toNat_le c ((normalizeHexE_shape col hx hnh).2 c hc)
          · exact ih l' hb p hp'
    · rw [if_neg hv] at h
      exact ih l h p hp

theorem buildIArray_skip (W H : Nat) (idx : Rat) (col : JsColor)
    (rest : List (Rat × JsColor)) (h : ¬ validIdx W H idx) :
    buildIArray W H ((idx, col) :: rest) = buildIArray W H rest := by
  simp only [buildIArray]
  rw [if_neg h]

theorem buildIArray_filterMap (W H : Nat) :
    ∀ (pixels : List (Rat × JsColor)) (l : List (Nat × String)),
      buildIArray W H pixels = .ok l →
      l = pixels.filterMap (fun p =>
        if validIdx W H p.1 then
          (normalizeHexE p.2).toOption.map (fun h => (p.1.num.toNat, h))
        else none) := by
  intro pixels
  induction pixels with
  | nil =>
    intro l h
    simp only [buildIArray] at h
    injection h with h
    subst h
    rfl
  | cons px rest ih =>
    intro l h
    obtain ⟨idx, col⟩ := px
    simp only [buildIArray] at h
    by_cases hv : validIdx W H idx
    · rw [if_pos hv] at h
      cases hnh : normalizeHexE col with
      | error e => rw [hnh] at h; exact Except.noConfusion h
      | ok hx =>
        rw [hnh] at h
        cases hb : buildIArray W H rest with
        | error e => rw [hb] at h; exact Except.noConfusion h
        | ok l' =>
          rw [hb] at h
          injection h with h
          subst h
          rw [List.filterMap_cons]
          simp only [if_pos hv, hnh, Except.toOption, Option.map_some']
          rw [ih l' hb]
          rfl
    · rw [if_neg hv] at h
      rw [List.filterMap_cons]
      simp only [if_neg hv]
      exact ih l h

theorem buildIArray_color_abort (W H : Nat) (idx : Rat) (col : JsColor) (e : String)
    (rest : List (Rat × JsColor)) (hv : validIdx W H idx)
    (he : normalizeHexE col = .error e) :
    buildIArray W H ((idx, col) :: rest) = .error e := by
  simp only [buildIArray]
  rw [if_pos hv, he]

/-! ### Byte lengths of serialized chunks -/

theorem byteLen_append (a b : String) :
    byteLengthUtf8 (a ++ b) = byteLengthUtf8 a + byteLengthUtf8 b := by
  unfold byteLengthUtf8
  rw [show (a ++ b).data = a.data ++ b.data from rfl, List.map_append, List.sum_append]

theorem ascii_sum_eq_length :
    ∀ (cs : List Char), (∀ c ∈ cs, c.toNat ≤ 127) →
      (cs.map Char.utf8Size).sum = cs.length := by
  intro cs
  induction cs with
  | nil => intro _; rfl
  | cons c cs ih =>
    intro h
    simp only [List.map_cons, List.sum_cons, List.length_cons]
    rw [utf8Size_eq_one c (h c (List.mem_cons_self c cs)),
      ih (fun d hd => h d (List.mem_cons_of_mem c hd))]
    omega

theorem byteLen_eq_length (s : String) (h : ∀ c ∈ s.data, c.toNat ≤ 127) :
    byteLengthUtf8 s = s.length :=
  ascii_sum_eq_length s.data h

theorem repr_ascii (n : Nat) : ∀ c ∈ (Nat.repr n).data, c.toNat ≤ 127 := by
  intro c hc
  have hc' : c ∈ Nat.toDigits 10 n := hc
  rcases toDigitsCore_mem 10 (by decide) (n + 1) n [] c hc' with h | ⟨m, _, rfl⟩
  · exact absurd h (List.not_mem_nil c)
  · exact digitChar_toNat_le m

theorem byteLen_repr_le (n : Nat) (e : Nat) (he : 0 < e) (hn : n < 10 ^ e) :
    byteLengthUtf8 (Nat.repr n) ≤ e := by
  rw [byteLen_eq_length _ (repr_ascii n)]
  exact Nat.repr_length n e he hn

theorem intercalate_singleton (x : String) : String.intercalate "," [x] = x := by
  simp [String.intercalate, String.intercalate.go]

theorem byteLen_serializeChunk_singleton (powerOn : Bool) (segId : Nat)
    (ttU : Option Nat) (i : Nat) (h : String) :
    byteLengthUtf8 (serializeChunk powerOn segId ttU [(i, h)]) =
      43 + byteLengthUtf8 (jsonBool powerOn) + byteLengthUtf8 (Nat.repr segId) +
        byteLengthUtf8 (jsonTt ttU) + byteLengthUtf8 (Nat.repr i) +
        byteLengthUtf8 h := by
  unfold serializeChunk
  rw [List.map_singleton, intercalate_singleton]
  unfold jsonPair
  dsimp only
  simp only [byteLen_append]
  have h1 : byteLengthUtf8 "\x7b\"on\":" = 6 := by decide
  have h2 : byteLengthUtf8 ",\"seg\":[\x7b\"id\":" = 14 := by decide
  have h3 : byteLengthUtf8 ",\"i\":[" = 6 := by decide
  have h4 : byteLengthUtf8 ",\"" = 2 := by decide
  have h5 : byteLengthUtf8 "\"" = 1 := by decide
  have h6 : byteLengthUtf8 "]\x7d],\"v\":false" = 13 := by decide
  have h7 : byteLengthUtf8 "\x7d" = 1 := by decide
  omega

theorem chunkSer_wled_singleton_le (i : Nat) (h : String)
    (hi : i < GRID_WIDTH * GRID_HEIGHT) (hlen : h.length = 6)
    (hascii : ∀ c ∈ h.data, c.toNat ≤ 127) :
    byteLengthUtf8 (chunkSer wledCfg noOpts [(i, h)]) ≤ 65 := by
  have hser : chunkSer wledCfg noOpts [(i, h)] = serializeChunk true 0 (some 0) [(i, h)] := by
    unfold chunkSer chunkPowerOn chunkTt msToTtUnits wledCfg noOpts
    norm_num
  rw [hser, byteLen_serializeChunk_singleton]
  have h1 : byteLengthUtf8 (jsonBool true) = 4 := by decide
  have h2 : byteLengthUtf8 (Nat.repr 0) = 1 := by decide
  have h3 : byteLengthUtf8 (jsonTt (some 0)) = 7 := by decide
  have h4 : byteLengthUtf8 (Nat.repr i) ≤ 4 := by
    apply byteLen_repr_le i 4 (by decide)
    have hwh : GRID_WIDTH * GRID_HEIGHT = 2304 := rfl
    omega
  have h5 : byteLengthUtf8 h = 6 := by
    rw [byteLen_eq_length _ hascii]; exact hlen
  omega

/-- C2. For every batch given to `sendPixels` whose colors all normalize,
the concatenation of the emitted chunks' pairs, in emission order, is exactly
the index-filtered, normalized input list in its original order; and every
emitted chunk's serialized payload fits the active transport's byte budget,
except a forced singleton chunk whose single pair alone exceeds the budget. -/
theorem sendPixels_chunks_sound (cfg : WledCfg) (opts : FlushOpts) (wsAvail : Bool)
    (pixels : List (Rat × JsColor)) (l : List (Nat × String)) (ws : Bool)
    (chunks : List (List (Nat × String)))
    (hbuild : buildIArray cfg.gridWidth cfg.gridHeight pixels = .ok l)
    (hsend : sendPixelsChunks cfg opts wsAvail pixels = .ok (ws, chunks)) :
    chunks.join = l ∧
    ∀ ch ∈ chunks,
      byteLengthUtf8 (chunkSer cfg opts ch) ≤ activeLimit ws ∨
      (ch.length = 1 ∧ activeLimit ws < byteLengthUtf8 (chunkSer cfg opts ch)) := by
  simp only [sendPixelsChunks, hbuild] at hsend
  cases l with
  | nil =>
    injection hsend with hsend
    have h2 := congrArg Prod.snd hsend
    dsimp at h2
    subst h2
    exact ⟨rfl, fun ch hch => absurd hch (List.not_mem_nil ch)⟩
  | cons p rest =>
    injection hsend with hsend
    have h1 := congrArg Prod.fst hsend
    have h2 := congrArg Prod.snd hsend
    dsimp at h1 h2
    subst h1
    subst h2
    constructor
    · exact chunkPairsCore_join _ _ (p :: rest).length (p :: rest) (le_refl _)
    · intro ch hch
      exact (chunkPairsCore_budget _ _ (p :: rest).length (p :: rest) (le_refl _)
        ch hch).2

/-- Witness for `sendPixels_chunks_sound` on the concrete batch
`demoPixels`. -/
theorem sendPixels_chunks_sound_witness :
    buildIArray testCfg.gridWidth testCfg.gridHeight demoPixels = .ok demoPairs ∧
    sendPixelsChunks testCfg noOpts true demoPixels = .ok (true, [demoPairs]) ∧
    [demoPairs].join = demoPairs ∧
    (∀ ch ∈ [demoPairs],
      byteLengthUtf8 (chunkSer testCfg noOpts ch) ≤ activeLimit true ∨
      (ch.length = 1 ∧ activeLimit true < byteLengthUtf8 (chunkSer testCfg noOpts ch))) :=
  ⟨rfl, rfl,
    (sendPixels_chunks_sound testCfg noOpts true demoPixels demoPairs true
      [demoPairs] rfl rfl).1,
    (sendPixels_chunks_sound testCfg noOpts true demoPixels demoPairs true
      [demoPairs] rfl rfl).2⟩

/-- C3. With the deployed configuration, a batch of more than 300 valid
pixels forces the HTTP transport regardless of the WebSocket preference and
every emitted chunk fits the 5000-byte HTTP budget; a nonempty batch of at
most 300 pixels with WebSocket preferred and available uses the WebSocket
transport and its 1400-byte budget, and every chunk fits it. -/
theorem sendPixels_transport (pixels : List (Rat × JsColor)) (l : List (Nat × String))
    (hbuild : buildIArray wledCfg.gridWidth wledCfg.gridHeight pixels = .ok l) :
    (LARGE_BATCH_PIXEL_THRESHOLD < l.length → ∀ wsAvail : Bool,
      sendPixelsChunks wledCfg noOpts wsAvail pixels =
        .ok (false, chunkPairs
          (fun ps => byteLengthUtf8 (chunkSer wledCfg noOpts ps)) HTTP_LIMIT l) ∧
      chunkPairs (fun ps => byteLengthUtf8 (chunkSer wledCfg noOpts ps)) HTTP_LIMIT l ≠ [] ∧
      ∀ ch ∈ chunkPairs (fun ps => byteLengthUtf8 (chunkSer wledCfg noOpts ps)) HTTP_LIMIT l,
        byteLengthUtf8 (chunkSer wledCfg noOpts ch) ≤ HTTP_LIMIT) ∧
    (l ≠ [] → l.length ≤ LARGE_BATCH_PIXEL_THRESHOLD →
      sendPixelsChunks wledCfg noOpts true pixels =
        .ok (true, chunkPairs
          (fun ps => byteLengthUtf8 (chunkSer wledCfg noOpts ps)) WEBSOCKET_LIMIT l) ∧
      ∀ ch ∈ chunkPairs (fun ps => byteLengthUtf8 (chunkSer wledCfg noOpts ps))
          WEBSOCKET_LIMIT l,
        byteLengthUtf8 (chunkSer wledCfg noOpts ch) ≤ WEBSOCKET_LIMIT) := by
  have hsingle : ∀ (limit : Nat), 65 ≤ limit →
      ∀ ch ∈ chunkPairs (fun ps => byteLengthUtf8 (chunkSer wledCfg noOpts ps)) limit l,
        byteLengthUtf8 (chunkSer wledCfg noOpts ch) ≤ limit := by
    intro limit hlim ch hch
    rcases (chunkPairsCore_budget _ _ l.length l (le_refl _) ch hch).2 with hle | ⟨h1, _⟩
    · exact hle
    · obtain ⟨q, rfl⟩ := List.length_eq_one.mp h1
      have hql : q ∈ l := by
        rw [← chunkPairsCore_join (fun ps => byteLengthUtf8 (chunkSer wledCfg noOpts ps))
          limit l.length l (le_refl _)]
        exact List.mem_join.mpr ⟨[q], hch, List.mem_singleton.mpr rfl⟩
      obtain ⟨hi, hlen, hascii⟩ := buildIArray_pairs _ _ pixels l hbuild q hql
      calc byteLengthUtf8 (chunkSer wledCfg noOpts [q]) ≤ 65 :=
            chunkSer_wled_singleton_le q.1 q.2 hi hlen hascii
        _ ≤ limit := hlim
  constructor
  · intro hbig wsAvail
    cases l with
    | nil => simp [LARGE_BATCH_PIXEL_THRESHOLD] at hbig
    | cons p rest =>
      refine ⟨?_, chunkPairs_ne_nil _ _ p rest, hsingle HTTP_LIMIT (by decide)⟩
      simp only [sendPixelsChunks, hbuild]
      rw [if_pos hbig]
      rfl
  · intro hne hle
    cases l with
    | nil => exact absurd rfl hne
    | cons p rest =>
      refine ⟨?_, hsingle WEBSOCKET_LIMIT (by decide)⟩
      simp only [sendPixelsChunks, hbuild]
      rw [if_neg (Nat.not_lt.mpr hle)]
      rfl

/-- Witness for `sendPixels_transport` on the concrete batch `demoPixels`. -/
theorem sendPixels_transport_witness :
    buildIArray wledCfg.gridWidth wledCfg.gridHeight demoPixels = .ok demoPairs ∧
    (demoPairs ≠ [] → demoPairs.length ≤ LARGE_BATCH_PIXEL_THRESHOLD →
      sendPixelsChunks wledCfg noOpts true demoPixels =
        .ok (true, chunkPairs
          (fun ps => byteLengthUtf8 (chunkSer wledCfg noOpts ps)) WEBSOCKET_LIMIT demoPairs) ∧
      ∀ ch ∈ chunkPairs (fun ps => byteLengthUtf8 (chunkSer wledCfg noOpts ps))
          WEBSOCKET_LIMIT demoPairs,
        byteLengthUtf8 (chunkSer wledCfg noOpts ch) ≤ WEBSOCKET_LIMIT) :=
  ⟨rfl, (sendPixels_transport demoPixels demoPairs rfl).2⟩

/-- C8 counterexample. A batch whose second write is valid but whose first
has an unparseable color: `sendPixels` rejects the whole batch with the
validation error instead of skipping the bad write — the remaining write is
not processed. -/
theorem sendPixels_color_abort_cex :
    sendPixelsChunks wledCfg noOpts true
        [((0 : Rat), JsColor.str "zzz"), ((1 : Rat), JsColor.str "00FF00")] =
      .error "Invalid hex color: zzz" := rfl

/-- C8 (amended). A write with a non-integer or out-of-range index is
skipped without surfacing an error and every remaining write in the batch is
still processed, in order; but a write with an unparseable color at a valid
index makes the whole `sendPixels` call fail with the normalizer's error, so
the rest of that batch is not sent. -/
theorem sendPixels_skip (W H : Nat) :
    (∀ (idx : Rat) (col : JsColor) (rest : List (Rat × JsColor)), ¬ validIdx W H idx →
      buildIArray W H ((idx, col) :: rest) = buildIArray W H rest) ∧
    (∀ (pixels : List (Rat × JsColor)) (l : List (Nat × String)),
      buildIArray W H pixels = .ok l →
      l = pixels.filterMap (fun p =>
        if validIdx W H p.1 then
          (normalizeHexE p.2).toOption.map (fun h => (p.1.num.toNat, h))
        else none)) ∧
    (∀ (idx : Rat) (col : JsColor) (e : String) (rest : List (Rat × JsColor)),
      validIdx W H idx → normalizeHexE col = .error e →
      buildIArray W H ((idx, col) :: rest) = .error e) :=
  ⟨fun idx col rest h => buildIArray_skip W H idx col rest h,
   buildIArray_filterMap W H,
   fun idx col e rest hv he => buildIArray_color_abort W H idx col e rest hv he⟩

end LedGrid
